import Mathlib

/-!
Verification of the kaasBenchmarks dispatch core
(`inference/benchmark/rayBench.py`): the runner-pool policies
(round-robin, balance, exclusive), the status-list bookkeeping, the stats
collection paths, the pipeline dispatcher `_runOne`, the MLPerf completion
handler, and the worker actor.  Python classes become Lean structures;
methods become pure state-passing functions; concurrent traces become
lists of atomic operations (each operation is one critical section of the
source).
-/

namespace RayBench

/-! ## actorStatus and statusList (rayBench.py lines 280-306) -/

/-- `actorStatus.state` values: `RESERVED = 0`, `IDLE = 1`, `BUSY = 2`. -/
inductive AState where
  | reserved
  | idle
  | busy
deriving DecidableEq, Repr

/-- `statusList`: the ordered statuses plus the `nReserved` counter (the
lock and condition variable have no state of their own). `nReserved` is a
Python int, hence `Int`. -/
structure StatusList where
  statuses : List AState
  nReserved : Int
deriving DecidableEq, Repr

/-- `statusList.updateState(status, newState)`: adjusts `nReserved` when
a status enters or leaves `RESERVED`, then writes the new state.  The
status is identified by its index `i`. -/
def updateState (s : StatusList) (i : Nat) (new : AState) : StatusList :=
  match s.statuses[i]? with
  | none => s
  | some old =>
    if old = AState.reserved then
      { statuses := s.statuses.set i new, nReserved := s.nReserved - 1 }
    else if new = AState.reserved then
      { statuses := s.statuses.set i new, nReserved := s.nReserved + 1 }
    else
      { statuses := s.statuses.set i new, nReserved := s.nReserved }

/-- One atomic critical section of a policy operation acting on a
`statusList`.
* `reserveIdle i`: `pickActorBalanced` finds `statuses[i]` IDLE and
  reserves it (lines 325-328, and line 362 after a wait).
* `freeBusy i`: a ready reference lets `pickActorBalanced` move a BUSY
  status back to IDLE (lines 352-356).
* `getTimeout`: `ray.wait` returned nothing; `pickActorBalanced` returns
  `None` leaving the list untouched (lines 339-343).
* `update i`: `PolicyBalance.update` moves the handle's status to BUSY
  (lines 425-427).
* `scaleUp`: `PolicyBalance.scaleUp` appends a fresh IDLE status
  (line 391).
* `scaleDown`: `PolicyBalance.scaleDown` pops the tail status
  (line 399); `nReserved` is not consulted. -/
inductive SOp where
  | reserveIdle (i : Nat)
  | freeBusy (i : Nat)
  | getTimeout
  | update (i : Nat)
  | scaleUp
  | scaleDown
deriving DecidableEq, Repr

/-- Apply one operation; `none` when its precondition fails (the source
would crash or the operation is not enabled there). -/
def stepS (s : StatusList) : SOp → Option StatusList
  | SOp.reserveIdle i =>
    if s.statuses[i]? = some AState.idle then
      some (updateState s i AState.reserved)
    else none
  | SOp.freeBusy i =>
    if s.statuses[i]? = some AState.busy then
      some (updateState s i AState.idle)
    else none
  | SOp.getTimeout => some s
  | SOp.update i =>
    if i < s.statuses.length then some (updateState s i AState.busy) else none
  | SOp.scaleUp =>
    some { statuses := s.statuses ++ [AState.idle], nReserved := s.nReserved }
  | SOp.scaleDown =>
    if s.statuses.isEmpty then none
    else some { statuses := s.statuses.dropLast, nReserved := s.nReserved }

/-- Run a trace of operations. -/
def runS (s : StatusList) : List SOp → Option StatusList
  | [] => some s
  | op :: ops => (stepS s op).bind (fun s1 => runS s1 ops)

/-- `PolicyBalance.__init__(nRunner)`: `nRunner` IDLE statuses. -/
def initS (n : Nat) : StatusList :=
  { statuses := List.replicate n AState.idle, nReserved := 0 }

def countState (l : List AState) (a : AState) : Nat := l.count a

/-- The claimed status-list invariant. -/
def invS (s : StatusList) : Prop :=
  s.nReserved = (countState s.statuses AState.reserved : Int) ∧
  countState s.statuses AState.idle + countState s.statuses AState.reserved
    + countState s.statuses AState.busy = s.statuses.length ∧
  s.nReserved ≤ (s.statuses.length : Int)

instance (s : StatusList) : Decidable (invS s) := by
  unfold invS; infer_instance

/-- `stepS` restricted to traces in which `scaleDown` never pops a
RESERVED status (the amended side condition). -/
def stepGood (s : StatusList) (op : SOp) : Option StatusList :=
  match op with
  | SOp.scaleDown =>
    if s.statuses.getLast? = some AState.reserved then none else stepS s op
  | _ => stepS s op

def runGood (s : StatusList) : List SOp → Option StatusList
  | [] => some s
  | op :: ops => (stepGood s op).bind (fun s1 => runGood s1 ops)



lemma count_set (l : List AState) (i : Nat) (a b c : AState) (h : l[i]? = some a) :
    (l.set i b).count c + (if a = c then 1 else 0)
      = l.count c + (if b = c then 1 else 0) := by
  induction l generalizing i with
  | nil => simp at h
  | cons x xs ih =>
    cases i with
    | zero =>
      simp at h
      subst h
      simp [List.count_cons]
      omega
    | succ n =>
      simp at h
      have := ih n h
      simp [List.count_cons, List.set]
      omega

lemma updateState_inv (s : StatusList) (i : Nat) (old new : AState)
    (h : invS s) (hold : s.statuses[i]? = some old)
    (hok : new = AState.reserved → old ≠ AState.reserved) :
    invS (updateState s i new) := by
  obtain ⟨h1, h2, h3⟩ := h
  have eI := count_set s.statuses i old new AState.idle hold
  have eR := count_set s.statuses i old new AState.reserved hold
  have eB := count_set s.statuses i old new AState.busy hold
  have hlen : (s.statuses.set i new).length = s.statuses.length :=
    List.length_set s.statuses i new
  have hcle : (s.statuses.set i new).count AState.reserved
      ≤ (s.statuses.set i new).length := List.count_le_length _ _
  unfold updateState
  rw [hold]
  unfold invS countState at *
  rcases old with _ | _ | _ <;> rcases new with _ | _ | _ <;>
    simp_all <;> omega

lemma stepGood_inv (s s' : StatusList) (op : SOp)
    (h : invS s) (hstep : stepGood s op = some s') : invS s' := by
  cases op with
  | reserveIdle i =>
    simp only [stepGood, stepS] at hstep
    split at hstep
    · rename_i hidle
      cases hstep
      exact updateState_inv s i AState.idle AState.reserved h hidle (by decide)
    · exact absurd hstep (by simp)
  | freeBusy i =>
    simp only [stepGood, stepS] at hstep
    split at hstep
    · rename_i hbusy
      cases hstep
      exact updateState_inv s i AState.busy AState.idle h hbusy (by decide)
    · exact absurd hstep (by simp)
  | getTimeout =>
    simp only [stepGood, stepS] at hstep
    cases hstep
    exact h
  | update i =>
    simp only [stepGood, stepS] at hstep
    split at hstep
    · rename_i hlt
      cases hstep
      have hget : s.statuses[i]? = some s.statuses[i] :=
        List.getElem?_eq_getElem hlt
      exact updateState_inv s i _ AState.busy h hget (by simp)
    · exact absurd hstep (by simp)
  | scaleUp =>
    simp only [stepGood, stepS] at hstep
    cases hstep
    obtain ⟨h1, h2, h3⟩ := h
    refine ⟨?_, ?_, ?_⟩ <;>
      simp_all [invS, countState, List.count_append] <;> omega
  | scaleDown =>
    simp only [stepGood, stepS] at hstep
    split at hstep
    · exact absurd hstep (by simp)
    · rename_i hlast
      split at hstep
      · exact absurd hstep (by simp)
      · rename_i hne
        cases hstep
        have hne' : s.statuses ≠ [] := by
          simpa [List.isEmpty_iff] using hne
        have hdecomp : s.statuses.dropLast ++ [s.statuses.getLast hne'] = s.statuses :=
          List.dropLast_append_getLast hne'
        have hlastne : s.statuses.getLast hne' ≠ AState.reserved := by
          intro hc
          apply hlast
          rw [List.getLast?_eq_getLast s.statuses hne', hc]
        obtain ⟨h1, h2, h3⟩ := h
        unfold invS countState at *
        constructor
        · rw [h1]
          conv_lhs => rw [← hdecomp]
          simp [List.count_append, List.count_singleton]
          intro hc
          exact absurd hc hlastne
        constructor
        · have hlen : s.statuses.dropLast.length + 1 = s.statuses.length := by
            conv_rhs => rw [← hdecomp]
            simp
          have hds : ∀ c : AState,
              s.statuses.dropLast.count c + [s.statuses.getLast hne'].count c
                = s.statuses.count c := by
            intro c
            rw [← List.count_append, hdecomp]
          have hI := hds AState.idle
          have hR := hds AState.reserved
          have hB := hds AState.busy
          have hone : [s.statuses.getLast hne'].count AState.idle
              + [s.statuses.getLast hne'].count AState.reserved
              + [s.statuses.getLast hne'].count AState.busy = 1 := by
            rcases hh : s.statuses.getLast hne' with _ | _ | _ <;> simp
          show s.statuses.dropLast.count AState.idle
              + s.statuses.dropLast.count AState.reserved
              + s.statuses.dropLast.count AState.busy = s.statuses.dropLast.length
          omega
        · have hres : (s.statuses.dropLast.count AState.reserved : Int)
              ≤ s.statuses.dropLast.length := by
            exact_mod_cast List.count_le_length _ _
          have : s.statuses.dropLast.count AState.reserved
              = s.statuses.count AState.reserved := by
            conv_rhs => rw [← hdecomp]
            simp [List.count_append, List.count_singleton]
            intro hc
            exact absurd hc hlastne
          show s.nReserved ≤ (s.statuses.dropLast.length : Int)
          omega

lemma runGood_inv (ops : List SOp) (s s' : StatusList)
    (h : invS s) (hrun : runGood s ops = some s') : invS s' := by
  induction ops generalizing s with
  | nil => cases hrun; exact h
  | cons op rest ih =>
    simp only [runGood] at hrun
    cases hst : stepGood s op with
    | none => rw [hst] at hrun; cases hrun
    | some s1 =>
      rw [hst] at hrun
      exact ih s1 (stepGood_inv s s1 op h hst) hrun

lemma invS_init (n : Nat) : invS (initS n) := by
  unfold invS initS countState
  simp [List.count_replicate]


/-! ## PolicyRR (rayBench.py lines 258-277) -/


/-- `PolicyRR.getRunner` body: `self.last = (self.last + 1) % len(self.actors);
actor = self.actors[self.last]`.  Returns the new cursor, which is the index
of the returned actor. -/
def rrGetRunner (n last : Nat) : Nat := (last + 1) % n

/-- Indices returned by `k` successive `PolicyRR.getRunner` calls starting
from cursor `last` on a pool of `n` actors. -/
def rrSeqFrom (n last : Nat) : Nat → List Nat
  | 0 => []
  | k + 1 =>
    let nxt := rrGetRunner n last
    nxt :: rrSeqFrom n nxt k

/-- Indices returned by `k` successive `getRunner` calls on a freshly
constructed `PolicyRR(n)` (`self.last = 0`). -/
def rrSequence (n k : Nat) : List Nat := rrSeqFrom n 0 k



/-- Claim C1 (as stated) is false: on a `PolicyBalance(1)` status list, the
trace `getRunner` (which reserves the only worker) followed by `scaleDown`
(which pops the tail status without touching `nReserved`) ends at a
quiescent point with `nReserved = 1`, zero RESERVED statuses, and
`nReserved > |statuses|`. -/
theorem c1_counterexample :
    runS (initS 1) [SOp.reserveIdle 0, SOp.scaleDown] =
      some { statuses := [], nReserved := 1 } ∧
    ¬ invS { statuses := [], nReserved := 1 } := by decide

/-- Claim C1, amended: for every trace of policy operations in which no
`scaleDown` pops a RESERVED status, at every quiescent point `nReserved`
equals the number of RESERVED statuses, the IDLE/RESERVED/BUSY counts sum
to the number of statuses, and `nReserved` never exceeds the number of
statuses. -/
theorem c1_theorem (n : Nat) (ops : List SOp) (s' : StatusList)
    (hrun : runGood (initS n) ops = some s') : invS s' :=
  runGood_inv ops (initS n) s' (invS_init n) hrun

/-- Witness for C1: a concrete two-worker trace that reserves worker 0. -/
theorem c1_witness :
    invS { statuses := [AState.reserved, AState.idle], nReserved := 1 } :=
  c1_theorem 2 [SOp.reserveIdle 0]
    { statuses := [AState.reserved, AState.idle], nReserved := 1 } (by decide)

/-- Claim C2 (as stated) is false: the cursor of a fresh `PolicyRR` starts
at 0 and is advanced before indexing, so the first `getRunner` returns
worker 1, not worker 0. -/
theorem c2_counterexample :
    ¬ (rrSequence 3 9 = [0, 1, 2, 0, 1, 2, 0, 1, 2]) := by decide

/-- Claim C2, amended: 9 successive `getRunner` calls on a `PolicyRR` with
3 workers return each worker exactly 3 times, in the cyclic order starting
at worker 1: `w1,w2,w0,w1,w2,w0,w1,w2,w0`. -/
theorem c2_theorem :
    rrSequence 3 9 = [1, 2, 0, 1, 2, 0, 1, 2, 0] ∧
    (rrSequence 3 9).count 0 = 3 ∧
    (rrSequence 3 9).count 1 = 3 ∧
    (rrSequence 3 9).count 2 = 3 := by decide



/-! ## pickActorBalanced timeout path (rayBench.py lines 309-365, 405-417) -/

/-- The scan `for i, status in enumerate(slist.statuses): if status.state ==
actorStatus.IDLE: ...`: index of the first IDLE status. -/
def firstIdle : List AState → Option Nat
  | [] => none
  | a :: rest =>
    if a = AState.idle then some 0 else (firstIdle rest).map (· + 1)

/-- Outcome of a `pickActorBalanced(slist, timeout)` call in the runs where
the object-store wait produces nothing before the timeout expires.
`ret idx s` is a normal return carrying the resulting status list;
`blockedCv` is the wait on `reservedCv`, which has no timeout;
`assertFail` is the `AssertionError` from `assert len(outstanding) != 0`. -/
inductive PickOutcome where
  | ret (idx : Option Nat) (s : StatusList)
  | blockedCv
  | assertFail
deriving DecidableEq, Repr

/-- `pickActorBalanced` specialised to the timed-out `ray.wait`: empty list
returns `None` (lines 317-318); all statuses RESERVED (as counted by
`nReserved`) waits on the condition variable (lines 320-321); an IDLE
status is reserved and returned (lines 324-328); otherwise the scan has
collected the refs of the BUSY statuses into `outstanding` and asserts
`len(outstanding) != 0` (line 333) -- if no status is BUSY the call raises
`AssertionError`; else `ray.wait(outstanding, ...)` returns `done == []`
at the timeout and the call returns `None` with the list untouched
(lines 336-343). -/
def pickActorTimedOut (s : StatusList) : PickOutcome :=
  if s.statuses.isEmpty then PickOutcome.ret none s
  else if s.nReserved = (s.statuses.length : Int) then PickOutcome.blockedCv
  else
    match firstIdle s.statuses with
    | some i => PickOutcome.ret (some i) (updateState s i AState.reserved)
    | none =>
      if AState.busy ∈ s.statuses then PickOutcome.ret none s
      else PickOutcome.assertFail

/-- Outcome of `PolicyBalance.getRunner` in the same runs: `pair none s`
models the `return None, None` branch (lines 411-412); the condition-variable
wait and the assertion error of `pickActorBalanced` propagate. -/
inductive GetRunnerOutcome where
  | pair (runner : Option Nat) (s : StatusList)
  | blockedCv
  | assertFail
deriving DecidableEq, Repr

/-- `PolicyBalance.getRunner(clientID, timeout=...)` on the timed-out runs. -/
def balanceGetRunnerTimedOut (s : StatusList) : GetRunnerOutcome :=
  match pickActorTimedOut s with
  | PickOutcome.ret none s1 => GetRunnerOutcome.pair none s1
  | PickOutcome.ret (some i) s1 => GetRunnerOutcome.pair (some i) s1
  | PickOutcome.blockedCv => GetRunnerOutcome.blockedCv
  | PickOutcome.assertFail => GetRunnerOutcome.assertFail

lemma firstIdle_eq_none (l : List AState) (h : AState.idle ∉ l) :
    firstIdle l = none := by
  induction l with
  | nil => rfl
  | cons a rest ih =>
    simp only [List.mem_cons] at h
    push_neg at h
    have ha : a ≠ AState.idle := fun hc => h.1 hc.symm
    simp [firstIdle, ha, ih h.2]

/-- Claim C3 (as stated) is false: with the single status RESERVED and no
idle worker, the timed-out `getRunner` call does not return `(None, None)`
-- it waits on the condition variable, which has no timeout
(rayBench.py lines 320-321). -/
theorem c3_counterexample :
    AState.idle ∉ ({ statuses := [AState.reserved], nReserved := 1 } :
      StatusList).statuses ∧
    balanceGetRunnerTimedOut { statuses := [AState.reserved], nReserved := 1 }
      = GetRunnerOutcome.blockedCv := by decide

/-- Claim C3, amended: if no worker is idle and either the status list is
empty, or `nReserved` differs from the number of statuses and some status
is BUSY (so the call reaches `ray.wait` past the `assert`), a
`PolicyBalance.getRunner` call whose object-store wait times out returns
`(None, None)` and leaves the status list unchanged; when `nReserved`
equals the number of statuses the call instead waits on the condition
variable, which has no timeout; when no status is IDLE or BUSY but
`nReserved` differs from the length, the call raises `AssertionError`. -/
theorem c3_theorem (s : StatusList)
    (hni : AState.idle ∉ s.statuses)
    (h : s.statuses = [] ∨
      (s.nReserved ≠ (s.statuses.length : Int) ∧ AState.busy ∈ s.statuses)) :
    balanceGetRunnerTimedOut s = GetRunnerOutcome.pair none s := by
  unfold balanceGetRunnerTimedOut pickActorTimedOut
  rcases h with h | ⟨h, hbusy⟩
  · simp [h]
  · by_cases hemp : s.statuses.isEmpty
    · simp [hemp]
    · simp only [hemp, Bool.false_eq_true, if_false, if_neg h]
      rw [firstIdle_eq_none s.statuses hni]
      simp [hbusy]

/-- Witness for C3: one BUSY worker, nothing completes within the timeout. -/
theorem c3_witness :
    balanceGetRunnerTimedOut { statuses := [AState.busy], nReserved := 0 }
      = GetRunnerOutcome.pair none { statuses := [AState.busy], nReserved := 0 } :=
  c3_theorem { statuses := [AState.busy], nReserved := 0 } (by decide) (by decide)


/-! ## PolicyExclusive (rayBench.py lines 444-531) -/

/-- Per-client sub-pool sizes of `PolicyExclusive`. -/
structure ExclusiveState where
  maxRunners : Nat
  nRunners : Nat
  clientPools : List (Nat × Nat)
deriving DecidableEq, Repr

/-- `len(self.clientPools[cid].actors)`: dict lookup by key. -/
def poolSize : List (Nat × Nat) → Nat → Nat
  | [], _ => 0
  | p :: rest, cid => if p.1 = cid then p.2 else poolSize rest cid

/-- Lines 469-472: running maximum of pool lengths, starting at 0 with a
strict comparison. -/
def maxLength (pools : List (Nat × Nat)) : Nat :=
  pools.foldl (fun m p => if p.2 > m then p.2 else m) 0

/-- Lines 474-477: the clients whose pool length equals `maxLength`. -/
def evCandidates (pools : List (Nat × Nat)) : List Nat :=
  (pools.filter (fun p => p.2 = maxLength pools)).map Prod.fst

/-- Mutating the `PolicyBalance` stored under key `cid` changes its length. -/
def mapAdjust (pools : List (Nat × Nat)) (cid : Nat) (f : Nat → Nat) :
    List (Nat × Nat) :=
  pools.map (fun p => if p.1 = cid then (p.1, f p.2) else p)

def keys (pools : List (Nat × Nat)) : List Nat := pools.map Prod.fst

def sumSizes (pools : List (Nat × Nat)) : Nat := (pools.map Prod.snd).sum

inductive EOp where
  | addClient (cid : Nat)
  | grow (cid : Nat)
  | evict (cid : Nat) (lot : Nat)
deriving DecidableEq, Repr

def stepE (s : ExclusiveState) : EOp → Option ExclusiveState
  | EOp.addClient cid =>
    if cid ∈ keys s.clientPools then some s
    else some { s with clientPools := s.clientPools ++ [(cid, 0)] }
  | EOp.grow cid =>
    if cid ∈ keys s.clientPools then
      if s.nRunners < s.maxRunners then
        some { s with
          clientPools := mapAdjust s.clientPools cid (fun x => x + 1),
          nRunners := s.nRunners + 1 }
      else none
    else none
  | EOp.evict cid lot =>
    if cid ∈ keys s.clientPools then
      if s.nRunners < s.maxRunners then none
      else if poolSize s.clientPools cid < maxLength s.clientPools then
        match (evCandidates s.clientPools)[lot]? with
        | some victim =>
          let pools1 := mapAdjust s.clientPools victim (fun x => x - 1)
          some { s with clientPools := mapAdjust pools1 cid (fun x => x + 1) }
        | none => none
      else none
    else none

def runE (s : ExclusiveState) : List EOp → Option ExclusiveState
  | [] => some s
  | op :: ops => (stepE s op).bind (fun s1 => runE s1 ops)

def initE (m : Nat) : ExclusiveState :=
  { maxRunners := m, nRunners := 0, clientPools := [] }

def invE (s : ExclusiveState) : Prop :=
  (keys s.clientPools).Nodup ∧
  sumSizes s.clientPools = s.nRunners ∧
  s.nRunners ≤ s.maxRunners

-- ## helper lemmas

lemma maxLength_aux_le (pools : List (Nat × Nat)) (acc : Nat) :
    acc ≤ pools.foldl (fun m p => if p.2 > m then p.2 else m) acc := by
  induction pools generalizing acc with
  | nil => simp
  | cons p rest ih =>
    simp only [List.foldl]
    by_cases h : p.2 > acc
    · calc acc ≤ p.2 := le_of_lt h
        _ ≤ _ := by
          have := ih p.2
          simpa [h] using this
    · simpa [h] using ih acc

lemma mem_le_maxLength_aux (pools : List (Nat × Nat)) (acc : Nat) (p : Nat × Nat)
    (hp : p ∈ pools) :
    p.2 ≤ pools.foldl (fun m q => if q.2 > m then q.2 else m) acc := by
  induction pools generalizing acc with
  | nil => simp at hp
  | cons q rest ih =>
    rcases List.mem_cons.mp hp with h | h
    · subst h
      simp only [List.foldl]
      by_cases hq : p.2 > acc
      · simpa [hq] using maxLength_aux_le rest p.2
      · have : p.2 ≤ acc := le_of_not_lt hq
        calc p.2 ≤ acc := this
          _ ≤ _ := by simpa [hq] using maxLength_aux_le rest acc
    · simp only [List.foldl]
      exact ih _ h

lemma mem_le_maxLength (pools : List (Nat × Nat)) (p : Nat × Nat) (hp : p ∈ pools) :
    p.2 ≤ maxLength pools :=
  mem_le_maxLength_aux pools 0 p hp

lemma poolSize_eq_of_mem (pools : List (Nat × Nat)) (c sz : Nat)
    (hnd : (keys pools).Nodup) (hm : (c, sz) ∈ pools) :
    poolSize pools c = sz := by
  induction pools with
  | nil => simp at hm
  | cons p rest ih =>
    simp only [keys, List.map_cons, List.nodup_cons] at hnd
    rcases List.mem_cons.mp hm with h | h
    · rw [← h]
      simp [poolSize]
    · have hne : p.1 ≠ c := by
        intro hc
        exact hnd.1 (by
          rw [hc]
          exact List.mem_map.mpr ⟨(c, sz), h, rfl⟩)
      simp only [poolSize, if_neg hne]
      exact ih hnd.2 h

lemma mem_of_mem_keys (pools : List (Nat × Nat)) (c : Nat)
    (h : c ∈ keys pools) : (c, poolSize pools c) ∈ pools := by
  induction pools with
  | nil => simp [keys] at h
  | cons p rest ih =>
    by_cases hc : p.1 = c
    · subst hc
      have hps : poolSize (p :: rest) p.1 = p.2 := by simp [poolSize]
      rw [hps, Prod.mk.eta]
      exact List.mem_cons_self p rest
    · simp only [keys, List.map_cons, List.mem_cons] at h
      rcases h with h | h
      · exact absurd h.symm hc
      · simp only [poolSize, if_neg hc]
        exact List.mem_cons_of_mem p (ih h)

lemma mem_evCandidates_iff (pools : List (Nat × Nat)) (c : Nat)
    (hnd : (keys pools).Nodup) :
    c ∈ evCandidates pools ↔
      c ∈ keys pools ∧ poolSize pools c = maxLength pools := by
  constructor
  · intro h
    obtain ⟨p, hp, hpc⟩ := List.mem_map.mp h
    have hpm := List.mem_of_mem_filter hp
    have hfil := List.of_mem_filter hp
    simp only [decide_eq_true_eq] at hfil
    constructor
    · exact List.mem_map.mpr ⟨p, hpm, hpc⟩
    · rw [← hpc]
      rw [poolSize_eq_of_mem pools p.1 p.2 hnd (by rw [Prod.mk.eta]; exact hpm)]
      exact hfil
  · rintro ⟨hk, hsz⟩
    have hmem := mem_of_mem_keys pools c hk
    apply List.mem_map.mpr
    refine ⟨(c, poolSize pools c), ?_, rfl⟩
    apply List.mem_filter.mpr
    exact ⟨hmem, by simp [hsz]⟩

lemma evCandidates_nodup (pools : List (Nat × Nat))
    (hnd : (keys pools).Nodup) : (evCandidates pools).Nodup := by
  have hsub : (evCandidates pools).Sublist (keys pools) := by
    unfold evCandidates keys
    exact (List.filter_sublist pools).map Prod.fst
  exact hnd.sublist hsub

lemma keys_mapAdjust (pools : List (Nat × Nat)) (cid : Nat) (f : Nat → Nat) :
    keys (mapAdjust pools cid f) = keys pools := by
  unfold keys mapAdjust
  rw [List.map_map]
  apply List.map_congr_left
  intro p _
  by_cases h : p.1 = cid <;> simp [h]

lemma poolSize_mapAdjust_self (pools : List (Nat × Nat)) (cid : Nat)
    (f : Nat → Nat) (h : cid ∈ keys pools) :
    poolSize (mapAdjust pools cid f) cid = f (poolSize pools cid) := by
  induction pools with
  | nil => simp [keys] at h
  | cons p rest ih =>
    by_cases hc : p.1 = cid
    · simp [mapAdjust, poolSize, hc]
    · simp only [keys, List.map_cons, List.mem_cons] at h
      rcases h with h | h
      · exact absurd h.symm hc
      · simp only [mapAdjust, List.map_cons, if_neg hc, poolSize, if_neg hc]
        exact ih h

lemma mapAdjust_eq_of_not_mem (pools : List (Nat × Nat)) (cid : Nat)
    (f : Nat → Nat) (h : cid ∉ keys pools) : mapAdjust pools cid f = pools := by
  unfold mapAdjust
  have : ∀ p ∈ pools, (if p.1 = cid then (p.1, f p.2) else p) = p := by
    intro p hp
    have : p.1 ≠ cid := by
      intro hc
      exact h (List.mem_map.mpr ⟨p, hp, hc⟩)
    simp [this]
  calc pools.map _ = pools.map id := List.map_congr_left this
    _ = pools := List.map_id pools

lemma poolSize_mapAdjust_other (pools : List (Nat × Nat)) (cid d : Nat)
    (f : Nat → Nat) (h : d ≠ cid) :
    poolSize (mapAdjust pools cid f) d = poolSize pools d := by
  induction pools with
  | nil => rfl
  | cons p rest ih =>
    unfold mapAdjust at ih ⊢
    simp only [List.map_cons]
    by_cases hc : p.1 = cid
    · have hpd : p.1 ≠ d := by
        rw [hc]
        exact fun hh => h hh.symm
      simp only [if_pos hc, poolSize, if_neg hpd]
      exact ih
    · simp only [if_neg hc, poolSize]
      by_cases hd : p.1 = d
      · simp [hd]
      · simp only [if_neg hd]
        exact ih

lemma sumSizes_mapAdjust (pools : List (Nat × Nat)) (cid : Nat)
    (f : Nat → Nat) (hnd : (keys pools).Nodup) (h : cid ∈ keys pools) :
    sumSizes (mapAdjust pools cid f) + poolSize pools cid
      = sumSizes pools + f (poolSize pools cid) := by
  induction pools with
  | nil => simp [keys] at h
  | cons p rest ih =>
    simp only [keys, List.map_cons, List.nodup_cons] at hnd
    by_cases hc : p.1 = cid
    · have hnot : cid ∉ keys rest := by rw [← hc]; exact hnd.1
      have hadj : mapAdjust rest cid f = rest :=
        mapAdjust_eq_of_not_mem rest cid f hnot
      simp only [mapAdjust, List.map_cons, if_pos hc]
      unfold mapAdjust at hadj
      rw [hadj]
      simp only [sumSizes, List.map_cons, List.sum_cons, poolSize, if_pos hc]
      omega
    · simp only [keys, List.map_cons, List.mem_cons] at h
      rcases h with h | h
      · exact absurd h.symm hc
      · simp only [mapAdjust, List.map_cons, if_neg hc, sumSizes, List.map_cons,
          List.sum_cons, poolSize, if_neg hc]
        have := ih hnd.2 h
        unfold sumSizes mapAdjust at this
        omega

-- ## invariant preservation

lemma stepE_inv (s s1 : ExclusiveState) (op : EOp)
    (h : invE s) (hstep : stepE s op = some s1) : invE s1 := by
  obtain ⟨hnd, hsum, hle⟩ := h
  cases op with
  | addClient cid =>
    simp only [stepE] at hstep
    split at hstep
    · cases hstep; exact ⟨hnd, hsum, hle⟩
    · rename_i hni
      cases hstep
      refine ⟨?_, ?_, hle⟩
      · simp only [keys, List.map_append, List.map_cons, List.map_nil]
        rw [List.nodup_append]
        refine ⟨hnd, List.nodup_singleton cid, ?_⟩
        intro a ha hb
        simp at hb
        rw [hb] at ha
        exact hni ha
      · simp only [sumSizes, List.map_append, List.sum_append]
        simpa using hsum
  | grow cid =>
    simp only [stepE] at hstep
    split at hstep
    · split at hstep
      · rename_i hmem hlt
        cases hstep
        refine ⟨?_, ?_, hlt⟩
        · simpa [keys_mapAdjust] using hnd
        · show sumSizes (mapAdjust s.clientPools cid (fun x => x + 1))
            = s.nRunners + 1
          have := sumSizes_mapAdjust s.clientPools cid (fun x => x + 1) hnd hmem
          simp only [] at this
          omega
      · cases hstep
    · cases hstep
  | evict cid lot =>
    simp only [stepE] at hstep
    split at hstep
    · rename_i hmem
      split at hstep
      · cases hstep
      · split at hstep
        · rename_i hlt hcl
          cases hvic : (evCandidates s.clientPools)[lot]? with
          | none => rw [hvic] at hstep; cases hstep
          | some victim =>
            rw [hvic] at hstep
            cases hstep
            have hvmem : victim ∈ evCandidates s.clientPools :=
              List.getElem?_mem hvic
            have hvic2 := (mem_evCandidates_iff s.clientPools victim hnd).mp hvmem
            have hvk : victim ∈ keys s.clientPools := hvic2.1
            have hvsz : poolSize s.clientPools victim = maxLength s.clientPools :=
              hvic2.2
            have hvne : victim ≠ cid := by
              intro hc
              rw [hc] at hvsz
              omega
            have hs1 := sumSizes_mapAdjust s.clientPools victim
              (fun x => x - 1) hnd hvk
            have hk1 : keys (mapAdjust s.clientPools victim (fun x => x - 1))
                = keys s.clientPools := keys_mapAdjust _ _ _
            have hnd1 : (keys (mapAdjust s.clientPools victim
                (fun x => x - 1))).Nodup := by
              rw [hk1]; exact hnd
            have hmem1 : cid ∈ keys (mapAdjust s.clientPools victim
                (fun x => x - 1)) := by
              rw [hk1]; exact hmem
            have hs2 := sumSizes_mapAdjust
              (mapAdjust s.clientPools victim (fun x => x - 1))
              cid (fun x => x + 1) hnd1 hmem1
            have hcid1 : poolSize (mapAdjust s.clientPools victim
                (fun x => x - 1)) cid = poolSize s.clientPools cid :=
              poolSize_mapAdjust_other _ _ _ _ (fun hh => hvne hh.symm)
            refine ⟨?_, ?_, hle⟩
            · simpa [keys_mapAdjust] using hnd
            · show sumSizes (mapAdjust
                (mapAdjust s.clientPools victim (fun x => x - 1))
                cid (fun x => x + 1)) = s.nRunners
              rw [hcid1] at hs2
              simp only [] at hs1 hs2
              have hml : 1 ≤ maxLength s.clientPools := by omega
              omega
        · cases hstep
    · cases hstep

lemma runE_inv (ops : List EOp) (s s1 : ExclusiveState)
    (h : invE s) (hrun : runE s ops = some s1) : invE s1 := by
  induction ops generalizing s with
  | nil => cases hrun; exact h
  | cons op rest ih =>
    simp only [runE] at hrun
    cases hst : stepE s op with
    | none => rw [hst] at hrun; cases hrun
    | some s2 =>
      rw [hst] at hrun
      exact ih s2 (stepE_inv s s2 op h hst) hrun

lemma invE_init (m : Nat) : invE (initE m) := by
  refine ⟨List.nodup_nil, rfl, Nat.zero_le m⟩

/-- Claim C4: in the eviction branch of `PolicyExclusive._makeRoom`
(caller pool strictly below the maximum), the victim drawn by
`candidates[random.randrange(0, len(candidates))]` always has a pool of
exactly the maximal size (hence strictly larger than the caller's), the
candidate list is exactly the set of maximal-pool tenants, and it has no
duplicates, so the uniform draw of `lot` induces a uniform distribution
over that set (each candidate is hit by exactly one lot value). -/
theorem c4_theorem (pools : List (Nat × Nat)) (cid lot v : Nat)
    (hnd : (keys pools).Nodup)
    (hcl : poolSize pools cid < maxLength pools)
    (hv : (evCandidates pools)[lot]? = some v) :
    poolSize pools v = maxLength pools ∧
    poolSize pools cid < poolSize pools v ∧
    (∀ c, c ∈ evCandidates pools ↔
      c ∈ keys pools ∧ poolSize pools c = maxLength pools) ∧
    (evCandidates pools).Nodup ∧
    (∀ c ∈ evCandidates pools, (evCandidates pools).count c = 1) := by
  have hvm : v ∈ evCandidates pools := List.getElem?_mem hv
  have h2 := (mem_evCandidates_iff pools v hnd).mp hvm
  have hnd2 := evCandidates_nodup pools hnd
  refine ⟨h2.2, by omega, fun c => mem_evCandidates_iff pools c hnd, hnd2, ?_⟩
  intro c hc
  exact List.count_eq_one_of_mem hnd2 hc

/-- Witness for C4: pools `{7: 2, 8: 2, 9: 1}`, caller 9, lot 0. -/
theorem c4_witness :
    poolSize [(7,2),(8,2),(9,1)] 7 = maxLength [(7,2),(8,2),(9,1)] ∧
    poolSize [(7,2),(8,2),(9,1)] 9 < poolSize [(7,2),(8,2),(9,1)] 7 ∧
    (evCandidates [(7,2),(8,2),(9,1)]).Nodup ∧
    (evCandidates [(7,2),(8,2),(9,1)]).count 8 = 1 := by
  have h := c4_theorem [(7,2),(8,2),(9,1)] 9 0 7 (by decide) (by decide) (by decide)
  exact ⟨h.1, h.2.1, h.2.2.2.1, h.2.2.2.2 8 (by decide)⟩

/-- Claim C5: in every reachable `PolicyExclusive` state the sum of the
per-tenant sub-pool sizes is at most `maxRunners`, and every eviction step
shrinks the victim tenant's pool by exactly one worker. -/
theorem c5_theorem (m : Nat) (ops : List EOp) (s1 : ExclusiveState)
    (hrun : runE (initE m) ops = some s1) :
    sumSizes s1.clientPools ≤ s1.maxRunners ∧
    (∀ cid lot s2 v, stepE s1 (EOp.evict cid lot) = some s2 →
      (evCandidates s1.clientPools)[lot]? = some v →
      poolSize s2.clientPools v + 1 = poolSize s1.clientPools v) := by
  have hinv := runE_inv ops (initE m) s1 (invE_init m) hrun
  obtain ⟨hnd, hsum, hle⟩ := hinv
  constructor
  · omega
  · intro cid lot s2 v hstep hv
    simp only [stepE] at hstep
    split at hstep
    · rename_i hmem
      split at hstep
      · cases hstep
      · split at hstep
        · rename_i hlt hcl
          rw [hv] at hstep
          simp only [] at hstep
          cases hstep
          have hvm : v ∈ evCandidates s1.clientPools := List.getElem?_mem hv
          have h2 := (mem_evCandidates_iff _ v hnd).mp hvm
          have hvne : v ≠ cid := by
            intro hc
            rw [hc] at h2
            omega
          have e1 : poolSize (mapAdjust s1.clientPools v (fun x => x - 1)) v
              = poolSize s1.clientPools v - 1 := by
            have := poolSize_mapAdjust_self s1.clientPools v (fun x => x - 1) h2.1
            simpa using this
          have e2 : poolSize (mapAdjust (mapAdjust s1.clientPools v
                (fun x => x - 1)) cid (fun x => x + 1)) v
              = poolSize (mapAdjust s1.clientPools v (fun x => x - 1)) v :=
            poolSize_mapAdjust_other _ _ _ _ hvne
          show poolSize (mapAdjust (mapAdjust s1.clientPools v
              (fun x => x - 1)) cid (fun x => x + 1)) v + 1
            = poolSize s1.clientPools v
          rw [e2, e1]
          omega
        · cases hstep
    · cases hstep

/-- Witness for C5: `maxRunners = 2`, tenant 0 grows twice, tenant 1
arrives and evicts tenant 0. -/
theorem c5_witness :
    sumSizes ([(0,2),(1,0)] : List (Nat × Nat)) ≤ 2 ∧
    poolSize ([(0,1),(1,1)] : List (Nat × Nat)) 0 + 1
      = poolSize ([(0,2),(1,0)] : List (Nat × Nat)) 0 := by
  have h := c5_theorem 2 [EOp.addClient 0, EOp.grow 0, EOp.grow 0, EOp.addClient 1]
    { maxRunners := 2, nRunners := 2, clientPools := [(0,2),(1,0)] } (by decide)
  exact ⟨h.1, h.2 1 0
    { maxRunners := 2, nRunners := 2, clientPools := [(0,1),(1,1)] } 0
    (by decide) (by decide)⟩



/-! ## PolicyBalance scaleDown / getStats reference bookkeeping
(rayBench.py lines 368-441) -/

/-- `PolicyBalance` bookkeeping relevant to stats collection: the number
of live actors, the `pendingActorStats` list, and a counter generating the
id of the next Ray object reference (each `.remote()` call yields a fresh
reference). -/
structure PBStats where
  nActors : Nat
  pending : List Nat
  nextRef : Nat
deriving DecidableEq, Repr

/-- `PolicyBalance` operations touching `actors`/`pendingActorStats`. -/
inductive PBOp where
  | scaleUp
  | scaleDown
  | getStats
deriving DecidableEq, Repr

/-- `PolicyBalance.scaleDown` (lines 396-403): pop the tail worker and
append a fresh `toKill.getStats.remote()` reference to
`pendingActorStats`.  Returns the new state and that reference. -/
def pbScaleDown (s : PBStats) : Option (PBStats × Nat) :=
  if s.nActors = 0 then none
  else some ({ nActors := s.nActors - 1, pending := s.pending ++ [s.nextRef],
               nextRef := s.nextRef + 1 }, s.nextRef)

/-- The references merged by `PolicyBalance.getStats` (lines 429-441):
`pendingActorStats` plus one fresh `actor.getStats.remote()` reference per
live actor. -/
def pbGatherRefs (s : PBStats) : List Nat :=
  s.pending ++ (List.range s.nActors).map (fun i => s.nextRef + i)

/-- State after `PolicyBalance.getStats`: `pendingActorStats = []`
(line 440); the per-actor calls consumed one fresh reference each. -/
def pbAfterGetStats (s : PBStats) : PBStats :=
  { nActors := s.nActors, pending := [], nextRef := s.nextRef + s.nActors }

/-- One `PolicyBalance` operation as a state transition. -/
def stepPB (s : PBStats) : PBOp → Option PBStats
  | PBOp.scaleUp => some { s with nActors := s.nActors + 1 }
  | PBOp.scaleDown =>
    if s.nActors = 0 then none
    else some { nActors := s.nActors - 1, pending := s.pending ++ [s.nextRef],
                nextRef := s.nextRef + 1 }
  | PBOp.getStats => some (pbAfterGetStats s)

def runPB (s : PBStats) : List PBOp → Option PBStats
  | [] => some s
  | op :: ops => (stepPB s op).bind (fun s1 => runPB s1 ops)

/-- `r` is held exactly once in `pendingActorStats` and every pending
reference predates the counter. -/
def keepsRef (r : Nat) (s : PBStats) : Prop :=
  s.pending.count r = 1 ∧ (∀ x ∈ s.pending, x < s.nextRef) ∧ r < s.nextRef

/-- `r` predates the counter and every pending reference is newer. -/
def missesRef (r : Nat) (s : PBStats) : Prop :=
  r < s.nextRef ∧ ∀ x ∈ s.pending, r < x

lemma stepPB_keeps (r : Nat) (s s1 : PBStats) (op : PBOp)
    (hop : op ≠ PBOp.getStats) (h : keepsRef r s)
    (hstep : stepPB s op = some s1) : keepsRef r s1 := by
  obtain ⟨h1, h2, h3⟩ := h
  cases op with
  | scaleUp =>
    cases hstep
    exact ⟨h1, h2, h3⟩
  | scaleDown =>
    simp only [stepPB] at hstep
    split at hstep
    · cases hstep
    · cases hstep
      refine ⟨?_, ?_, ?_⟩
      · show (s.pending ++ [s.nextRef]).count r = 1
        have hne : s.nextRef ≠ r := by omega
        simp [List.count_append, h1, List.count_singleton, hne]
      · show ∀ x ∈ s.pending ++ [s.nextRef], x < s.nextRef + 1
        intro x hx
        simp only [List.mem_append, List.mem_singleton] at hx
        rcases hx with hx | hx
        · have := h2 x hx
          omega
        · omega
      · show r < s.nextRef + 1
        omega
  | getStats => exact absurd rfl hop

lemma runPB_keeps (r : Nat) (ops : List PBOp) (s s2 : PBStats)
    (hops : PBOp.getStats ∉ ops) (h : keepsRef r s)
    (hrun : runPB s ops = some s2) : keepsRef r s2 := by
  induction ops generalizing s with
  | nil => cases hrun; exact h
  | cons op rest ih =>
    simp only [List.mem_cons] at hops
    push_neg at hops
    simp only [runPB] at hrun
    cases hst : stepPB s op with
    | none => rw [hst] at hrun; cases hrun
    | some s1 =>
      rw [hst] at hrun
      exact ih s1 hops.2 (stepPB_keeps r s s1 op (fun hc => hops.1 hc.symm) ⟨h.1, h.2.1, h.2.2⟩ hst) hrun

lemma stepPB_misses (r : Nat) (s s1 : PBStats) (op : PBOp)
    (h : missesRef r s) (hstep : stepPB s op = some s1) : missesRef r s1 := by
  obtain ⟨h1, h2⟩ := h
  cases op with
  | scaleUp =>
    cases hstep
    exact ⟨h1, h2⟩
  | scaleDown =>
    simp only [stepPB] at hstep
    split at hstep
    · cases hstep
    · cases hstep
      refine ⟨?_, ?_⟩
      · show r < s.nextRef + 1
        omega
      · show ∀ x ∈ s.pending ++ [s.nextRef], r < x
        intro x hx
        simp only [List.mem_append, List.mem_singleton] at hx
        rcases hx with hx | hx
        · exact h2 x hx
        · omega
  | getStats =>
    cases hstep
    refine ⟨?_, ?_⟩
    · show r < s.nextRef + s.nActors
      omega
    · show ∀ x ∈ ([] : List Nat), r < x
      intro x hx
      cases hx

lemma runPB_misses (r : Nat) (ops : List PBOp) (s s2 : PBStats)
    (h : missesRef r s) (hrun : runPB s ops = some s2) : missesRef r s2 := by
  induction ops generalizing s with
  | nil => cases hrun; exact h
  | cons op rest ih =>
    simp only [runPB] at hrun
    cases hst : stepPB s op with
    | none => rw [hst] at hrun; cases hrun
    | some s1 =>
      rw [hst] at hrun
      exact ih s1 (stepPB_misses r s s1 op ⟨h.1, h.2⟩ hst) hrun

lemma gather_count_of_keeps (r : Nat) (s : PBStats) (h : keepsRef r s) :
    (pbGatherRefs s).count r = 1 := by
  obtain ⟨h1, _, h3⟩ := h
  unfold pbGatherRefs
  rw [List.count_append, h1]
  have : r ∉ (List.range s.nActors).map (fun i => s.nextRef + i) := by
    intro hm
    obtain ⟨i, _, hi⟩ := List.mem_map.mp hm
    omega
  rw [List.count_eq_zero.mpr this]

lemma gather_count_of_misses (r : Nat) (s : PBStats) (h : missesRef r s) :
    (pbGatherRefs s).count r = 0 := by
  obtain ⟨h1, h2⟩ := h
  unfold pbGatherRefs
  rw [List.count_append]
  have hp : r ∉ s.pending := by
    intro hm
    have := h2 r hm
    omega
  have hm : r ∉ (List.range s.nActors).map (fun i => s.nextRef + i) := by
    intro hmm
    obtain ⟨i, _, hi⟩ := List.mem_map.mp hmm
    omega
  rw [List.count_eq_zero.mpr hp, List.count_eq_zero.mpr hm]

/-- Claim C6: after `PolicyBalance.scaleDown` records the removed worker's
`getStats()` reference `r` in `pendingActorStats`, `r` stays in
`pendingActorStats` across any operations that are not `getStats`, the next
`getStats()` merges `r` exactly once, and every later `getStats()` (after
arbitrary further operations) merges `r` zero times: stats from scaled-down
workers are never dropped and never counted twice. -/
theorem c6_theorem (s s1 : PBStats) (r : Nat)
    (hfresh : ∀ x ∈ s.pending, x < s.nextRef)
    (hsd : pbScaleDown s = some (s1, r))
    (ops : List PBOp) (hops : PBOp.getStats ∉ ops)
    (s2 : PBStats) (hrun : runPB s1 ops = some s2) :
    s2.pending.count r = 1 ∧
    (pbGatherRefs s2).count r = 1 ∧
    (∀ ops2 s3, runPB (pbAfterGetStats s2) ops2 = some s3 →
      (pbGatherRefs s3).count r = 0) := by
  simp only [pbScaleDown] at hsd
  split at hsd
  · cases hsd
  · simp only [Option.some_inj, Prod.mk.injEq] at hsd
    obtain ⟨hs1, hr⟩ := hsd
    have hk1 : keepsRef r s1 := by
      rw [← hs1, ← hr]
      refine ⟨?_, ?_, ?_⟩
      · show (s.pending ++ [s.nextRef]).count s.nextRef = 1
        have : s.nextRef ∉ s.pending := by
          intro hm
          have := hfresh _ hm
          omega
        simp [List.count_append, List.count_eq_zero.mpr this]
      · show ∀ x ∈ s.pending ++ [s.nextRef], x < s.nextRef + 1
        intro x hx
        simp only [List.mem_append, List.mem_singleton] at hx
        rcases hx with hx | hx
        · have := hfresh x hx
          omega
        · omega
      · show s.nextRef < s.nextRef + 1
        omega
    have hk2 : keepsRef r s2 := runPB_keeps r ops s1 s2 hops hk1 hrun
    refine ⟨hk2.1, gather_count_of_keeps r s2 hk2, ?_⟩
    intro ops2 s3 hrun2
    have hm0 : missesRef r (pbAfterGetStats s2) := by
      refine ⟨?_, ?_⟩
      · show r < s2.nextRef + s2.nActors
        have := hk2.2.2
        omega
      · show ∀ x ∈ ([] : List Nat), r < x
        intro x hx
        cases hx
    exact gather_count_of_misses r s3 (runPB_misses r ops2 _ s3 hm0 hrun2)

/-- Witness for C6: one worker scaled down, one `scaleUp` in between, then
the first and a second `getStats`. -/
theorem c6_witness :
    (({ nActors := 1, pending := [0], nextRef := 1 } : PBStats)).pending.count 0 = 1 ∧
    (pbGatherRefs { nActors := 1, pending := [0], nextRef := 1 }).count 0 = 1 ∧
    (pbGatherRefs { nActors := 1, pending := [], nextRef := 2 }).count 0 = 0 := by
  have h := c6_theorem { nActors := 1, pending := [], nextRef := 0 }
    { nActors := 0, pending := [0], nextRef := 1 } 0 (by simp) (by decide)
    [PBOp.scaleUp] (by decide) { nActors := 1, pending := [0], nextRef := 1 }
    (by decide)
  exact ⟨h.1, h.2.1, h.2.2 [] { nActors := 1, pending := [], nextRef := 2 } (by decide)⟩



/-! ## MLPerf completion handler (rayBench.py lines 821-860) -/

/-- A message `(resp, qid)` drained from the completion queue
(`handleCompletion`, rayBench.py lines 821-860): an integer `resp` is the
sentinel announcing the total number of expected acknowledgements, anything
else is a normal worker completion. -/
inductive Msg where
  | sentinel (n : Nat)
  | result (qid : Nat)
deriving DecidableEq, Repr

/-- `not isinstance(resp, int)`. -/
def isResult : Msg → Bool
  | Msg.sentinel _ => false
  | Msg.result _ => true

/-- The `while not wrapItUp or ncomplete != targetComplete` loop of
`handleCompletion`, one recursive call per `queue.get()`.  Returns the
final `ncomplete` and the queue contents it never consumed; `none` means
the loop blocked on an empty queue. -/
def hcLoop (nc : Nat) (tgt : Option Nat) (wrap : Bool) (q : List Msg) :
    Option (Nat × List Msg) :=
  if wrap ∧ tgt = some nc then some (nc, q)
  else
    match q with
    | [] => none
    | Msg.sentinel t :: rest =>
      if nc = t then some (nc, rest)
      else hcLoop nc (some t) true rest
    | Msg.result _ :: rest => hcLoop (nc + 1) tgt wrap rest

/-- `handleCompletion(modelSpec, queue)` on a queue holding `q`:
`ncomplete = 0`, `targetComplete = None`, `wrapItUp = False`. -/
def handleCompletion (q : List Msg) : Option (Nat × List Msg) :=
  hcLoop 0 none false q

lemma hcLoop_results_nowrap (pre : List Msg)
    (hpre : ∀ m ∈ pre, isResult m = true) (nc : Nat) (tgt : Option Nat)
    (rest : List Msg) :
    hcLoop nc tgt false (pre ++ rest) = hcLoop (nc + pre.length) tgt false rest := by
  induction pre generalizing nc with
  | nil => simp
  | cons m pre2 ih =>
    cases m with
    | sentinel t =>
      have := hpre (Msg.sentinel t) (List.mem_cons_self _ _)
      simp [isResult] at this
    | result qid =>
      have hpre2 : ∀ m ∈ pre2, isResult m = true := by
        intro m hm
        exact hpre m (List.mem_cons_of_mem _ hm)
      rw [List.cons_append]
      rw [hcLoop]
      rw [if_neg (by simp)]
      rw [ih hpre2 (nc + 1)]
      congr 1
      simp [List.length_cons]
      omega

lemma hcLoop_results_wrap (post : List Msg)
    (hpost : ∀ m ∈ post, isResult m = true) (nc t : Nat)
    (hlen : nc + post.length = t) (post2 : List Msg) :
    hcLoop nc (some t) true (post ++ post2) = some (t, post2) := by
  induction post generalizing nc with
  | nil =>
    simp only [List.length_nil, Nat.add_zero] at hlen
    subst hlen
    simp only [List.nil_append]
    rw [hcLoop.eq_def]
    rw [if_pos ⟨rfl, rfl⟩]
  | cons m post3 ih =>
    cases m with
    | sentinel u =>
      have := hpost (Msg.sentinel u) (List.mem_cons_self _ _)
      simp [isResult] at this
    | result qid =>
      have hpost3 : ∀ m ∈ post3, isResult m = true := by
        intro m hm
        exact hpost m (List.mem_cons_of_mem _ hm)
      have hne : ¬ ((some t : Option Nat) = some nc) := by
        simp only [List.length_cons] at hlen
        intro hc
        simp only [Option.some_inj] at hc
        omega
      rw [List.cons_append]
      rw [hcLoop]
      rw [if_neg (by simp [hne])]
      apply ih hpost3
      simp only [List.length_cons] at hlen
      omega

/-- Claim C7: the completion handler exits exactly when the number of
non-sentinel messages it has acknowledged reaches the sentinel's count
`t`, wherever the sentinel sits in the stream: for any queue made of
result messages `pre`, the sentinel `t`, result messages `post1` with
`|pre| + |post1| = t`, and arbitrary further messages `post2`, the handler
acknowledges exactly `t` messages and exits leaving `post2` unconsumed. -/
theorem c7_theorem (t : Nat) (pre post1 post2 : List Msg)
    (hpre : ∀ m ∈ pre, isResult m = true)
    (hpost : ∀ m ∈ post1, isResult m = true)
    (hlen : pre.length + post1.length = t) :
    handleCompletion (pre ++ Msg.sentinel t :: (post1 ++ post2))
      = some (t, post2) := by
  unfold handleCompletion
  rw [hcLoop_results_nowrap pre hpre 0 none (Msg.sentinel t :: (post1 ++ post2))]
  rw [hcLoop]
  rw [if_neg (by simp)]
  simp only [Nat.zero_add]
  by_cases hc : pre.length = t
  · have hp1 : post1 = [] := by
      have : post1.length = 0 := by omega
      exact List.eq_nil_of_length_eq_zero this
    subst hp1
    rw [if_pos hc, hc]
    simp
  · rw [if_neg hc]
    apply hcLoop_results_wrap post1 hpost
    omega

/-- Witness for C7, the spec's scenario: 3 results, the sentinel 5, 2 more
results; all 5 acknowledged, and a 6th message is never consumed. -/
theorem c7_witness :
    handleCompletion
      [Msg.result 0, Msg.result 1, Msg.result 2, Msg.sentinel 5,
       Msg.result 3, Msg.result 4, Msg.result 5]
      = some (5, [Msg.result 5]) :=
  c7_theorem 5 [Msg.result 0, Msg.result 1, Msg.result 2]
    [Msg.result 3, Msg.result 4] [Msg.result 5]
    (by decide) (by decide) (by decide)


/-- The `modelClass` attributes `_runOne` consumes (`nOutPre`, `nOutRun`,
`nOutPost`, `noPost`; cf. `testModel.py` lines 25-34). -/
structure MClass where
  nOutPre : Nat
  nOutRun : Nat
  nOutPost : Nat
  noPost : Bool
deriving DecidableEq, Repr

/-- `modelSpec.modelType`. -/
inductive MType where
  | native
  | kaas
deriving DecidableEq, Repr

/-- The value a remote invocation hands back to the driver: a single
object reference (`num_returns == 1`) or a Python list of references. -/
inductive RayVal where
  | ref (id : Nat)
  | refList (ids : List Nat)
deriving DecidableEq, Repr

/-- `f.options(num_returns=k).remote(...)`: one bare reference when
`k == 1`, otherwise a list of `k` references.  `base` seeds fresh ids. -/
def remoteCall (k : Nat) (base : Nat) : RayVal :=
  if k = 1 then RayVal.ref base
  else RayVal.refList ((List.range k).map (fun i => base + i))

/-- The number of output references in a returned value. -/
def countRefs : RayVal → Nat
  | RayVal.ref _ => 1
  | RayVal.refList ids => ids.length

/-- The `x = [x]` normalisation `_runOne` applies after a single-return
remote call. -/
def listify : RayVal → RayVal
  | RayVal.ref i => RayVal.refList [i]
  | v => v

/-- The staged path of `_runOne` (rayBench.py lines 622-669): spawn `pre`
with `nOutPre` returns, dispatch `pool.run` with `nOutRun` returns (the
KaaS and native branches use the same `num_returns`), wrap single returns
in a list, then either return `runOut` (`noPost`) or spawn `post` with
`nOutPost` returns. -/
def runOneStaged (mc : MClass) (mt : MType) (completionQ : Bool) : RayVal :=
  let preOut := remoteCall mc.nOutPre 0
  let _preOut := if mc.nOutPre = 1 then listify preOut else preOut
  let runOut :=
    match mt with
    | MType.kaas => remoteCall mc.nOutRun 100
    | MType.native => remoteCall mc.nOutRun 100
  let runOut := if mc.nOutRun = 1 then listify runOut else runOut
  if mc.noPost then runOut
  else
    let postOut := remoteCall mc.nOutPost 200
    if mc.nOutPost = 1 then listify postOut else postOut

/-- The inline path (lines 601-621): `runInline` is spawned with
`num_returns=mClass.nOutPost`; with a completion queue the result is
pushed there and `postOut = None` is returned. -/
def runOneInline (mc : MClass) (completionQ : Bool) : Option RayVal :=
  if completionQ then none
  else some (remoteCall mc.nOutPost 0)

/-- `_runOne`: outer `none` models the `assert not modelType == 'kaas'`
failure on the inline path; the inner value is the returned `postOut`. -/
def runOne (mc : MClass) (mt : MType) (inline completionQ : Bool) :
    Option (Option RayVal) :=
  if inline then
    if mt = MType.kaas then none
    else some (runOneInline mc completionQ)
  else some (some (runOneStaged mc mt completionQ))

lemma countRefs_remoteCall (k base : Nat) : countRefs (remoteCall k base) = k := by
  unfold remoteCall
  by_cases h : k = 1
  · simp [h, countRefs]
  · simp [h, countRefs]

lemma countRefs_listify_remoteCall (base : Nat) :
    countRefs (listify (remoteCall 1 base)) = 1 := by
  simp [remoteCall, listify, countRefs]

/-- Claim C8 (as stated) is false on the inline path: `runInline` is
always spawned with `num_returns=nOutPost` (line 615/620), so for a
`noPost` model with `nOutRun = 2` and `nOutPost = 1` the inline invocation
returns 1 reference where the claim demands `nOutRun = 2`. -/
theorem c8_counterexample :
    runOne { nOutPre := 1, nOutRun := 2, nOutPost := 1, noPost := true }
        MType.native true false = some (some (RayVal.ref 0)) ∧
    countRefs (RayVal.ref 0) = 1 ∧
    ({ nOutPre := 1, nOutRun := 2, nOutPost := 1, noPost := true } : MClass).noPost
        = true ∧
    ({ nOutPre := 1, nOutRun := 2, nOutPost := 1, noPost := true } : MClass).nOutRun
        = 2 := by
  decide

/-- Claim C8, amended: on the staged path the number of returned output
references is `nOutRun` when the model has `noPost` and `nOutPost`
otherwise; on the inline path (non-KaaS, no completion queue) it is always
`nOutPost`. -/
theorem c8_theorem (mc : MClass) (mt : MType) :
    countRefs (runOneStaged mc mt false)
      = (if mc.noPost then mc.nOutRun else mc.nOutPost) ∧
    runOne mc mt false false = some (some (runOneStaged mc mt false)) ∧
    (mt ≠ MType.kaas →
      runOne mc mt true false = some (some (remoteCall mc.nOutPost 0)) ∧
      countRefs (remoteCall mc.nOutPost 0) = mc.nOutPost) := by
  refine ⟨?_, rfl, ?_⟩
  · unfold runOneStaged
    by_cases hp : mc.noPost
    · simp only [hp, if_true]
      by_cases hr : mc.nOutRun = 1
      · cases mt <;> simp [hr, countRefs_listify_remoteCall]
      · cases mt <;> simp [hr, countRefs_remoteCall]
    · simp only [hp, if_false]
      by_cases hq : mc.nOutPost = 1
      · cases mt <;> simp [hq, countRefs_listify_remoteCall]
      · cases mt <;> simp [hq, countRefs_remoteCall]
  · intro hmt
    refine ⟨?_, countRefs_remoteCall mc.nOutPost 0⟩
    unfold runOne runOneInline
    simp [hmt]

/-- The attribute set of the repository's own test model
(`testModel.py` lines 23-34): every count is 1 and `noPost = False`. -/
def mcTest : MClass :=
  { nOutPre := 1, nOutRun := 1, nOutPost := 1, noPost := false }

/-- Witness for C8 at the repository's test-model attribute set. -/
theorem c8_witness :
    countRefs (runOneStaged mcTest MType.native false) = 1 ∧
    runOne mcTest MType.native true false = some (some (remoteCall 1 0)) := by
  have h := c8_theorem mcTest MType.native
  exact ⟨h.1, (h.2.2 (by decide)).1⟩

/-! ## getStats idempotence (rayBench.py lines 238-242, 429-441, 525-531) -/

/-- `mergePerClientStats(base, delta)` (rayBench.py lines 67-72): merge
each tenant's delta into `base`, inserting new tenants. -/
def mergePerClientStats {St : Type} (mg : St → St → St)
    (base delta : List (Nat × St)) : List (Nat × St) :=
  delta.foldl (fun b p =>
    if (b.map Prod.fst).contains p.1 then
      b.map (fun q => if q.1 = p.1 then (q.1, mg q.2 p.2) else q)
    else b ++ [p]) base

/-- The state `PolicyBalance.getStats` reads: each live actor's stats map
(`runActor.stats`) and the resolved values behind `pendingActorStats`. -/
structure PBal (St : Type) where
  actorStats : List (List (Nat × St))
  pendingVals : List (List (Nat × St))

/-- `PolicyBalance.getStats` (lines 429-441) combined with
`runActor.getStats` (lines 238-242): gather `pendingActorStats` plus each
actor's stats, merge them into an empty map, reset every actor's stats and
clear `pendingActorStats`. -/
def pbGetStats {St : Type} (mg : St → St → St) (pb : PBal St) :
    List (Nat × St) × PBal St :=
  let gathered := pb.pendingVals ++ pb.actorStats
  (gathered.foldl (mergePerClientStats mg) [],
   { actorStats := pb.actorStats.map (fun _ => []), pendingVals := [] })

/-- `PolicyExclusive.clientPools.values()`. -/
structure PExcl (St : Type) where
  pools : List (PBal St)

/-- `PolicyExclusive.getStats` (lines 525-531): merge every sub-pool's
`getStats()` result. -/
def exGetStats {St : Type} (mg : St → St → St) (ex : PExcl St) :
    List (Nat × St) × PExcl St :=
  let results := ex.pools.map (pbGetStats mg)
  (results.foldl (fun acc pr => mergePerClientStats mg acc pr.1) [],
   { pools := results.map Prod.snd })

lemma merge_nil_delta {St : Type} (mg : St → St → St) (b : List (Nat × St)) :
    mergePerClientStats mg b [] = b := rfl

lemma foldl_merge_empties {St : Type} (mg : St → St → St)
    (l : List (List (Nat × St))) (h : ∀ x ∈ l, x = []) :
    l.foldl (mergePerClientStats mg) [] = [] := by
  induction l with
  | nil => rfl
  | cons d rest ih =>
    have hd : d = [] := h d (List.mem_cons_self _ _)
    subst hd
    simp only [List.foldl_cons, merge_nil_delta]
    exact ih (fun x hx => h x (List.mem_cons_of_mem _ hx))

/-- All stats sources of a pool are empty. -/
def pbReset {St : Type} (pb : PBal St) : Prop :=
  pb.pendingVals = [] ∧ ∀ x ∈ pb.actorStats, x = []

lemma pbGetStats_reset {St : Type} (mg : St → St → St) (pb : PBal St) :
    pbReset (pbGetStats mg pb).2 := by
  refine ⟨rfl, ?_⟩
  intro x hx
  simp only [pbGetStats, List.mem_map] at hx
  obtain ⟨y, _, hy⟩ := hx
  exact hy.symm

lemma pbGetStats_empty_of_reset {St : Type} (mg : St → St → St) (pb : PBal St)
    (h : pbReset pb) : (pbGetStats mg pb).1 = [] := by
  obtain ⟨h1, h2⟩ := h
  unfold pbGetStats
  simp only [h1, List.nil_append]
  exact foldl_merge_empties mg pb.actorStats h2

lemma foldl_merge_fst_empties {St : Type} (mg : St → St → St)
    (l : List (List (Nat × St) × PBal St)) (h : ∀ x ∈ l, x.1 = []) :
    l.foldl (fun acc pr => mergePerClientStats mg acc pr.1) [] = [] := by
  induction l with
  | nil => rfl
  | cons d rest ih =>
    have hd : d.1 = [] := h d (List.mem_cons_self _ _)
    simp only [List.foldl_cons, hd, merge_nil_delta]
    exact ih (fun x hx => h x (List.mem_cons_of_mem _ hx))

/-- Claim C9: for PolicyBalance and PolicyExclusive (the policies exposing
`getStats`), two successive `getStats()` calls with no intervening run,
scaleUp or scaleDown return maps whose second is empty: the first call
reads and resets every worker's stats and clears `pendingActorStats`, so
the second call merges only empty maps. -/
theorem c9_theorem {St : Type} (mg : St → St → St) (pb : PBal St)
    (ex : PExcl St) :
    (pbGetStats mg (pbGetStats mg pb).2).1 = [] ∧
    (exGetStats mg (exGetStats mg ex).2).1 = [] := by
  constructor
  · exact pbGetStats_empty_of_reset mg _ (pbGetStats_reset mg pb)
  · unfold exGetStats
    apply foldl_merge_fst_empties
    intro x hx
    simp only [List.mem_map] at hx
    obtain ⟨pb2, hpb2, hx2⟩ := hx
    obtain ⟨pr, ⟨pb3, _, hpr⟩, hsnd⟩ := hpb2
    rw [← hx2]
    apply pbGetStats_empty_of_reset
    rw [← hsnd, ← hpr]
    exact pbGetStats_reset mg pb3

/-! ## runActor.runNative (rayBench.py lines 196-221) -/

/-- `runActor.__init__`: per-tenant model cache and per-tenant stats. -/
structure RunActorState (M P : Type) where
  modelCache : List (Nat × M)
  stats : List (Nat × P)

/-- `runActor.runNative` (rayBench.py lines 206-221): ensure a stats
entry for `clientID`, reuse the cached model for `clientID` or instantiate
`modelSpec.modelClass(modelArg)` and cache it, then run.  The `cacheModel`
keyword is accepted but ignored (lines 211-213). -/
def runNative {M P R A I : Type} (modelClass : A → M) (runModel : M → I → R)
    (emptyProf : P) (a : RunActorState M P) (modelArg : A) (inputs : I)
    (cacheModel : Bool) (clientID : Nat) : RunActorState M P × R :=
  let stats1 := if clientID ∈ a.stats.map Prod.fst then a.stats
                else a.stats ++ [(clientID, emptyProf)]
  match a.modelCache.find? (fun p => p.1 == clientID) with
  | some p => ({ modelCache := a.modelCache, stats := stats1 },
               runModel p.2 inputs)
  | none =>
    let model := modelClass modelArg
    ({ modelCache := a.modelCache ++ [(clientID, model)], stats := stats1 },
     runModel model inputs)

/-- Claim C10: `runActor.runNative` behaves identically for any two values
of `cacheModel` (same resulting actor state, same result), and after the
call the instantiated model is always cached under `clientID`. -/
theorem c10_theorem {M P R A I : Type} (modelClass : A → M)
    (runModel : M → I → R) (emptyProf : P) (a : RunActorState M P)
    (modelArg : A) (inputs : I) (clientID : Nat) (b1 b2 : Bool) :
    runNative modelClass runModel emptyProf a modelArg inputs b1 clientID
      = runNative modelClass runModel emptyProf a modelArg inputs b2 clientID ∧
    clientID ∈ ((runNative modelClass runModel emptyProf a modelArg inputs b1
      clientID).1.modelCache.map Prod.fst) := by
  refine ⟨rfl, ?_⟩
  unfold runNative
  cases hf : a.modelCache.find? (fun p => p.1 == clientID) with
  | some p =>
    have hp := List.find?_some hf
    have hpm := List.mem_of_find?_eq_some hf
    simp only [beq_iff_eq] at hp
    simp only
    exact List.mem_map.mpr ⟨p, hpm, hp⟩
  | none =>
    simp only
    rw [List.map_append]
    simp


end RayBench
